import Mathlib

/-!
A verification development for `src/calendar_bot.py`: the folded-line
calendar parser, the temporal normalizer, the semantic extractors, the
message composer and the dedupe gate, shallowly embedded in Lean.

Modelling conventions:
* Python strings are sequences of Unicode code points, embedded as `List Char`
  (`Str` below); `str` turns a Lean string literal into one.
* Python `dict` state for the dedupe gate is an association list with
  Python's update-in-place/append-at-end semantics (`dictSet`).
* Code that can raise (`datetime.strptime`, dict `KeyError`) returns `Option`:
  `none` is the raised exception propagating out of the translated function.
* The timezone database behind `zoneinfo.ZoneInfo` is external data, not code
  of the repository; it is abstracted as a structure `TZDB` of total functions
  (an unknown-zone lookup failure is not modelled), and theorems about
  timezone-dependent behaviour quantify over every `TZDB`.
* Case mapping (`str.lower`/`str.upper`, `re.IGNORECASE`) is modelled on the
  character ranges the program's fixed patterns and its feeds exercise:
  ASCII, the Cyrillic block used by the Ukrainian patterns, and the four
  case-fold specials of CPython's `re` (İ U+0130, ı U+0131, ſ U+017F,
  K U+212A). Other characters map to themselves.
-/

/-- Python strings as code-point sequences. -/
abbrev Str := List Char

/-- A Lean string literal as a Python string value. -/
def str (s : String) : Str := s.toList

/-- Python `str.isspace` / `\s` per code point (the set CPython uses for
`strip`, `split`, `re \s`): 0x9-0xD, 0x1C-0x1F, space, NEL, NBSP, OGHAM,
the U+2000 range, LS, PS, NNBSP, MMSP, IDSP.  U+200B is NOT whitespace. -/
def pyIsSpace (c : Char) : Bool :=
  (9 ≤ c.toNat && c.toNat ≤ 13) || (28 ≤ c.toNat && c.toNat ≤ 32) || c.toNat == 0x85 ||
  c.toNat == 0xa0 || c.toNat == 0x1680 || (0x2000 ≤ c.toNat && c.toNat ≤ 0x200a) ||
  c.toNat == 0x2028 || c.toNat == 0x2029 || c.toNat == 0x202f || c.toNat == 0x205f ||
  c.toNat == 0x3000

/-- Python `str.lstrip()` with no argument. -/
def pyLStrip (s : Str) : Str := s.dropWhile pyIsSpace

/-- Python `str.rstrip()` with no argument. -/
def pyRStrip (s : Str) : Str := (s.reverse.dropWhile pyIsSpace).reverse

/-- Python `str.strip()` with no argument. -/
def pyStrip (s : Str) : Str := pyRStrip (pyLStrip s)

/-- Unicode simple lowercase on the ranges the program exercises: ASCII,
the Cyrillic letters of the patterns (А-Я, Ё, Ukrainian Є І Ї, Ґ) and the
simple-lowercase specials İ→i and K→k that CPython's `re` folds into ASCII.
Everything else maps to itself. -/
def pyLower (c : Char) : Char :=
  if 65 ≤ c.toNat && c.toNat ≤ 90 then Char.ofNat (c.toNat + 32)
  else if 0x410 ≤ c.toNat && c.toNat ≤ 0x42f then Char.ofNat (c.toNat + 0x20)
  else if 0x400 ≤ c.toNat && c.toNat ≤ 0x40f then Char.ofNat (c.toNat + 0x50)
  else if c.toNat == 0x490 then Char.ofNat 0x491
  else if c.toNat == 0x130 then Char.ofNat 0x69
  else if c.toNat == 0x212a then Char.ofNat 0x6b
  else c

/-- Unicode simple uppercase on the same ranges (plus ſ→S, ı→I). -/
def pyUpper (c : Char) : Char :=
  if 97 ≤ c.toNat && c.toNat ≤ 122 then Char.ofNat (c.toNat - 32)
  else if 0x430 ≤ c.toNat && c.toNat ≤ 0x44f then Char.ofNat (c.toNat - 0x20)
  else if 0x450 ≤ c.toNat && c.toNat ≤ 0x45f then Char.ofNat (c.toNat - 0x50)
  else if c.toNat == 0x491 then Char.ofNat 0x490
  else if c.toNat == 0x17f then Char.ofNat 0x53
  else if c.toNat == 0x131 then Char.ofNat 0x49
  else c

/-- Python `s.replace(pat, rep)`: replace every non-overlapping occurrence,
scanning left to right.  The first argument counts characters of a match
still to be skipped, so the recursion is structural: a match of a pattern
`p :: ps` at `c :: rest` emits the replacement and skips `ps.length` more
characters of `rest`. -/
def replaceAllAux (pat rep : Str) : Nat → Str → Str
  | _ + 1, [] => []
  | n + 1, _ :: rest => replaceAllAux pat rep n rest
  | 0, [] => []
  | 0, c :: rest =>
    match pat with
    | [] => c :: rest
    | p :: ps =>
      if (p :: ps).isPrefixOf (c :: rest) then
        rep ++ replaceAllAux pat rep ps.length rest
      else
        c :: replaceAllAux pat rep 0 rest

/-- Python `s.replace(pat, rep)` (never called with an empty pattern here). -/
def replaceAll (pat rep s : Str) : Str := replaceAllAux pat rep 0 s

/-- Python `s.split(sep)` for a one-character separator. -/
def splitOnChar (sep : Char) : Str → List Str
  | [] => [[]]
  | c :: rest =>
    if c == sep then [] :: splitOnChar sep rest
    else
      match splitOnChar sep rest with
      | [] => [[c]]
      | p :: ps => (c :: p) :: ps

/-- Python `sep.flatten(parts)` for a one-character separator. -/
def joinWith (sep : Char) (parts : List Str) : Str := List.intercalate [sep] parts

/-- Python `sub in s` (substring containment). -/
def strContains (s sub : Str) : Bool :=
  match s with
  | [] => sub.isEmpty
  | _ :: rest => sub.isPrefixOf s || strContains rest sub

/-- The code points Python `str.splitlines` breaks at (besides the \r\n pair). -/
def isLineBreakChar (c : Char) : Bool :=
  c.toNat == 10 || c.toNat == 11 || c.toNat == 12 || c.toNat == 13 || c.toNat == 28 ||
  c.toNat == 29 || c.toNat == 30 || c.toNat == 0x85 || c.toNat == 0x2028 || c.toNat == 0x2029

/-- The scanner behind `str.splitlines`: `acc` is the current (reversed)
line.  A \r\n pair is one break; a line at end of input is emitted only
when the scan is inside it (so a trailing break yields no empty line —
reaching the end right after a break and reaching it on empty input both
leave `acc` empty having emitted every line). -/
def splitlinesAux : Str → Str → List Str
  | acc, [] => if acc.isEmpty then [] else [acc.reverse]
  | acc, '\r' :: '\n' :: r2 => acc.reverse :: splitlinesAux [] r2
  | acc, c :: rest =>
    if isLineBreakChar c then acc.reverse :: splitlinesAux [] rest
    else splitlinesAux (c :: acc) rest

/-- Python `str.splitlines()`. -/
def pySplitlines (s : Str) : List Str :=
  if s.isEmpty then [] else splitlinesAux [] s

/-! ## Dedupe gate (`should_post`, `mark_posted`)

Python `dict` state as an association list: lookup takes the unique binding,
assignment updates an existing key in place or appends a new one. -/

/-- `state.get(key)`. -/
def dictGet : List (Str × Str) → Str → Option Str
  | [], _ => none
  | (k, v) :: rest, key => if k == key then some v else dictGet rest key

/-- `state[key] = value` on a Python dict (update in place, else append). -/
def dictSet : List (Str × Str) → Str → Str → List (Str × Str)
  | [], key, v => [(key, v)]
  | (k, w) :: rest, key, v =>
    if k == key then (key, v) :: rest else (k, w) :: dictSet rest key v

/-- `should_post(state, key, stamp)`: post only if the stored stamp differs
(`state.get(key) != stamp`; an absent key compares unequal to every stamp). -/
def should_post (state : List (Str × Str)) (key stamp : Str) : Bool :=
  !(dictGet state key == some stamp)

/-- `mark_posted(state, key, stamp)`: `state[key] = stamp`. -/
def mark_posted (state : List (Str × Str)) (key stamp : Str) : List (Str × Str) :=
  dictSet state key stamp

theorem dictGet_dictSet (state : List (Str × Str)) (key v : Str) :
    dictGet (dictSet state key v) key = some v := by
  induction state with
  | nil => simp [dictSet, dictGet]
  | cons kv rest ih =>
    obtain ⟨k, w⟩ := kv
    by_cases h : k == key
    · simp [dictSet, dictGet, h]
    · simp only [dictSet, dictGet, h]
      simpa [dictGet, h] using ih

/-- C1. The dedupe gate `should_post(state, key, stamp)` returns true iff the
stamp stored under `key` differs from `stamp` (including the case of no
stored stamp, so on the empty state it returns true for every key and stamp),
and after `mark_posted(state, key, S)` the call `should_post(state, key, S)`
returns false. -/
theorem should_post_dedupe_gate (state : List (Str × Str)) (key stamp : Str) :
    (should_post state key stamp = true ↔ dictGet state key ≠ some stamp) ∧
    should_post [] key stamp = true ∧
    should_post (mark_posted state key stamp) key stamp = false := by
  refine ⟨?_, ?_, ?_⟩
  · simp [should_post]
  · simp [should_post, dictGet]
  · simp [should_post, mark_posted, dictGet_dictSet]

/-! ## A small backtracking regex engine

The program's fixed patterns use only literals, alternation, an optional
element, greedy star/plus of a character class, and a trailing capture.
`matchRem` returns the possible remainders after matching a pattern at the
head of the input, in exactly the preference order CPython's backtracking
engine explores them (leftmost alternative first, greedy repetition longest
first); the first remainder that lets the rest of the pattern succeed is the
one `re` commits to. -/

inductive RE where
  | eps : RE
  | cls (p : Char → Bool) : RE
  | seq (a b : RE) : RE
  | alt (a b : RE) : RE
  | opt (a : RE) : RE
  | star (p : Char → Bool) : RE

/-- Remainders of a greedy `p*`, longest consumption first. -/
def starRems (p : Char → Bool) (s : Str) : List Str :=
  let k := (s.takeWhile p).length
  (List.range (k + 1)).map (fun i => s.drop (k - i))

/-- All remainders after matching `re` at the head of `s`, in backtracking
preference order. -/
def matchRem : RE → Str → List Str
  | .eps, s => [s]
  | .cls _, [] => []
  | .cls p, c :: rest => if p c then [rest] else []
  | .seq a b, s => (matchRem a s).flatMap (matchRem b)
  | .alt a b, s => matchRem a s ++ matchRem b s
  | .opt a, s => matchRem a s ++ [s]
  | .star p, s => starRems p s

/-- A literal under `re.IGNORECASE`: the input code point matches a pattern
code point if their simple lowercases agree, or via CPython `re`'s extra
case-fold equivalences s~ſ and i~ı. -/
def ciEq (pat c : Char) : Bool :=
  pyLower c == pyLower pat ||
  (pyLower pat == 's' && c == 'ſ') || (pyLower pat == 'i' && c == 'ı')

/-- A case-insensitive literal as a pattern. -/
def litCI (pat : String) : RE :=
  pat.toList.foldr (fun ch r => RE.seq (RE.cls (ciEq ch)) r) RE.eps

/-- The shared suffix `\s*[:\-]?\s*` of the teacher and passcode patterns. -/
def sepTail : RE :=
  .seq (.star pyIsSpace) (.seq (.opt (.cls (fun c => c == ':' || c == '-'))) (.star pyIsSpace))

/-- One teacher pattern `^(?:short\.?|long)\s*[:\-]?\s*(.+)$` without its
trailing capture. -/
def rolePat (short long : String) : RE :=
  .seq (.alt (.seq (litCI short) (.opt (.cls (fun c => c == '.')))) (litCI long)) sepTail

/-- The fixed ordered pattern list of `extract_teacher` (the last three are
duplicates of the first three under `re.IGNORECASE`, exactly as in the
source). -/
def rolePatterns : List RE :=
  [rolePat "доц" "доцент", rolePat "викл" "викладач", rolePat "проф" "професор",
   rolePat "асист" "асистент", rolePat "Доц" "Доцент", rolePat "Викл" "Викладач",
   rolePat "Проф" "Професор"]

/-- `re.match(prefix ++ "(.+)$", line)`'s group 1: the first remainder, in
preference order, that `(.+)$` accepts.  The lines this is applied to
contain no newline (they come from `splitlines`), so `(.+)$` accepts exactly
the nonempty remainders. -/
def reCapturePlusAll (re : RE) (s : Str) : Option Str :=
  (matchRem re s).find? (fun r => !r.isEmpty)

/-- The inner `for pat in patterns` loop of `extract_teacher`. -/
def teacherPatLoop : List RE → Str → Option Str
  | [], _ => none
  | p :: ps, line =>
    match reCapturePlusAll p line with
    | some r => some (pyStrip r)
    | none => teacherPatLoop ps line

/-- The outer `for line in lines` loop of `extract_teacher`. -/
def teacherLineLoop : List Str → Option Str
  | [] => none
  | line :: rest =>
    match teacherPatLoop rolePatterns line with
    | some r => some r
    | none => teacherLineLoop rest

/-- `extract_teacher(description)`: normalize literal `\n` sequences, split
into non-empty stripped lines, return the capture of the first line a role
pattern matches. -/
def extract_teacher (description : Str) : Option Str :=
  if description.isEmpty then none
  else
    teacherLineLoop
      (((pySplitlines (replaceAll (str "\\n") (str "\n") description)).map pyStrip).filter
        (fun l => !l.isEmpty))

/-- ASCII decimal digit (the `\d` the feed's patterns exercise). -/
def isDigitCh (c : Char) : Bool :=
  48 ≤ c.toNat && c.toNat ≤ 57

/-- The passcode keyword alternation `(?:Код доступу|Код доступа|Passcode|Пароль)`
followed by `\s*[:\-]?\s*`. -/
def passPrefix : RE :=
  .seq (.alt (litCI "Код доступу") (.alt (litCI "Код доступа")
    (.alt (litCI "Passcode") (litCI "Пароль")))) sepTail

/-- The passcode capture class `[A-Za-zА-Яа-я0-9\-_]` under `re.IGNORECASE`:
simple-lowercase into `[a-zа-я0-9\-_]`, plus the case-fold extras ſ and ı. -/
def isPassChar (c : Char) : Bool :=
  (97 ≤ (pyLower c).toNat && (pyLower c).toNat ≤ 122) ||
  (48 ≤ (pyLower c).toNat && (pyLower c).toNat ≤ 57) ||
  (0x430 ≤ (pyLower c).toNat && (pyLower c).toNat ≤ 0x44f) ||
  (pyLower c).toNat == 45 || (pyLower c).toNat == 95 || c == 'ſ' || c == 'ı'

/-- Match `re ++ (cap)+` at the head of `s` and return the greedy capture:
the first remainder of `re` whose head is a capture character. -/
def matchCapRunAt (re : RE) (cap : Char → Bool) (s : Str) : Option Str :=
  ((matchRem re s).find? (fun r =>
    match r with
    | c :: _ => cap c
    | [] => false)).map (fun r => r.takeWhile cap)

/-- `re.search` for `re ++ (cap)+`: leftmost position first. -/
def reSearchCapRun (re : RE) (cap : Char → Bool) : Str → Option Str
  | [] => matchCapRunAt re cap []
  | c :: rest =>
    match matchCapRunAt re cap (c :: rest) with
    | some r => some r
    | none => reSearchCapRun re cap rest

/-- `extract_passcode(description)`: first keyword-phrase match wins, the
captured token is returned stripped. -/
def extract_passcode (description : Str) : Option Str :=
  if description.isEmpty then none
  else
    (reSearchCapRun passPrefix isPassChar (replaceAll (str "\\n") (str "\n") description)).map
      pyStrip

/-- `TYPE_WORDS` in source (dict) iteration order. -/
def TYPE_WORDS : List (Str × Str) :=
  [(str "лекція", str "Лекція"), (str "практич", str "Практичне"),
   (str "лаб", str "Лабораторна"), (str "семінар", str "Семінар")]

/-- The `for k, v in TYPE_WORDS.items(): if k in tail: return v` loop. -/
def typeLoop : List (Str × Str) → Str → Option Str
  | [], _ => none
  | (k, v) :: rest, tail => if strContains tail k then some v else typeLoop rest tail

/-- `split_summary(summary)`: split on the em-dash; when at least two parts
and the lowercased last part holds a session-type stem, rejoin the left
parts; otherwise retry with the hyphen; otherwise the whole stripped title. -/
def split_summary (summary : Str) : Str × Option Str :=
  let s := pyStrip summary
  let parts := (splitOnChar '—' s).map pyStrip
  match (if 2 ≤ parts.length then typeLoop TYPE_WORDS ((parts.getLast?.getD []).map pyLower)
         else none) with
  | some v => (pyStrip (List.intercalate ['—'] parts.dropLast), some v)
  | none =>
    let parts2 := (splitOnChar '-' s).map pyStrip
    match (if 2 ≤ parts2.length then typeLoop TYPE_WORDS ((parts2.getLast?.getD []).map pyLower)
           else none) with
    | some v => (pyStrip (List.intercalate ['-'] parts2.dropLast), some v)
    | none => (s, none)

/-! ## Link extraction (`URL_RE`, `extract_zoom_links`) -/

/-- The code points of the literal specials in `URL_RE`'s character class
`-._~:/?#[]@!$&'()*+,;=%`. -/
def urlSpecials : List Nat :=
  [45, 46, 95, 126, 58, 47, 63, 35, 91, 93, 64, 33, 36, 38, 39, 40, 41, 42, 43, 44, 59, 61, 37]

/-- Membership in `URL_RE`'s class read literally (no case folding):
`[A-Za-z0-9\-._~:/?#\[\]@!$&'()*+,;=%]` — an all-ASCII set. -/
def isUrlChar (c : Char) : Bool :=
  (48 ≤ c.toNat && c.toNat ≤ 57) || (65 ≤ c.toNat && c.toNat ≤ 90) ||
  (97 ≤ c.toNat && c.toNat ≤ 122) || urlSpecials.contains c.toNat

/-- The class under `re.IGNORECASE` as CPython matches it: simple-lowercase
the input and test the (lowercased) set, plus the case-fold extras ſ and ı.
The non-ASCII code points this accepts are exactly İ, ı, ſ and K. -/
def isUrlBodyChar (c : Char) : Bool :=
  isUrlChar (pyLower c) || c == 'ſ' || c == 'ı'

/-- Try `URL_RE` (`https?://[class]+`, IGNORECASE) at the head of `s`;
`some k` is the length of the (greedy) match.  The optional `s` of the
scheme also matches ſ via `re`'s case-fold equivalences. -/
def matchUrlAt : Str → Option Nat
  | a :: b :: c :: d :: rest =>
    if (a == 'h' || a == 'H') && (b == 't' || b == 'T') && (c == 't' || c == 'T') &&
       (d == 'p' || d == 'P') then
      match rest with
      | e :: rest2 =>
        if e == 's' || e == 'S' || e == 'ſ' then
          match rest2 with
          | f :: g :: h :: rest3 =>
            if f == ':' && g == '/' && h == '/' then
              let body := rest3.takeWhile isUrlBodyChar
              if body.isEmpty then none else some (8 + body.length)
            else none
          | _ => none
        else
          match rest with
          | f :: g :: h :: rest3 =>
            if f == ':' && g == '/' && h == '/' then
              let body := rest3.takeWhile isUrlBodyChar
              if body.isEmpty then none else some (7 + body.length)
            else none
          | _ => none
      | [] => none
    else none
  | _ => none

/-- The scanner behind `URL_RE.findall`: the first argument counts
characters of the current match still to be skipped, so scanning resumes at
the end of each match (a match of length `k` at `c :: rest` skips `k - 1`
more characters of `rest`). -/
def findallAux : Nat → Str → List Str
  | _ + 1, [] => []
  | n + 1, _ :: rest => findallAux n rest
  | 0, [] => []
  | 0, c :: rest =>
    match matchUrlAt (c :: rest) with
    | some k => (c :: rest).take k :: findallAux (k - 1) rest
    | none => findallAux 0 rest

/-- `URL_RE.findall(s)`: leftmost non-overlapping matches. -/
def findallUrls (s : Str) : List Str := findallAux 0 s

/-- `_normalize_for_links(text)`: expand literal `\n` pairs, delete U+200B. -/
def _normalize_for_links (text : Str) : Str :=
  if text.isEmpty then []
  else replaceAll (str "​") [] (replaceAll (str "\\n") (str "\n") text)

/-- `extract_zoom_links(text)`: all `URL_RE` matches of the normalized text,
links containing `zoom.us` (case-insensitively) moved to the front, order
otherwise preserved. -/
def extract_zoom_links (text : Str) : List Str :=
  let t := _normalize_for_links text
  let links := findallUrls t
  let zoom := links.filter (fun l => strContains (l.map pyLower) (str "zoom.us"))
  let rest := links.filter (fun l => !zoom.contains l)
  zoom ++ rest

/-! ## Place classification (`classify_place`) -/

/-- The room pattern `(ауд\.?\s*\d+)` without its trailing `\d+`. -/
def roomPre : RE :=
  .seq (litCI "ауд") (.seq (.opt (.cls (fun c => c == '.'))) (.star pyIsSpace))

/-- Try the room pattern at the head of `s`; the result is the whole matched
text (the pattern's single group). -/
def roomMatchAt (s : Str) : Option Str :=
  ((matchRem roomPre s).find? (fun r =>
    match r with
    | c :: _ => isDigitCh c
    | [] => false)).map (fun r => s.take (s.length - r.length) ++ r.takeWhile isDigitCh)

/-- `re.search` for the room pattern: leftmost match. -/
def roomSearch : Str → Option Str
  | [] => roomMatchAt []
  | c :: rest =>
    match roomMatchAt (c :: rest) with
    | some g => some g
    | none => roomSearch rest

/-- The `m.group(1).replace('ауд', 'ауд.').strip()` post-processing of a room
match (note: a matched `ауд.` gains a second dot, exactly as in the source). -/
def roomLabel (g : Str) : Str := pyStrip (replaceAll (str "ауд") (str "ауд.") g)

/-- `classify_place(location, description)`. -/
def classify_place (location description : Str) : Str :=
  let blob := (location ++ '\n' :: description).map pyLower
  if strContains blob (str "online") || strContains blob (str "zoom") then
    match roomSearch blob with
    | some g => str "🌐 Online (Zoom) • 🏫 " ++ roomLabel g
    | none => str "🌐 Online (Zoom)"
  else
    match roomSearch blob with
    | some g => str "🏫 " ++ roomLabel g
    | none =>
      if !(pyStrip location).isEmpty then str "📍 " ++ pyStrip location
      else str "📍 (місце не вказано)"

/-! ## HTML escaping -/

/-- `escape_html(s)`: `&`, `<`, `>` in that order. -/
def escape_html (s : Str) : Str :=
  replaceAll (str ">") (str "&gt;")
    (replaceAll (str "<") (str "&lt;") (replaceAll (str "&") (str "&amp;") s))

/-- `escape_html_attr(s)`: additionally escape the double quote. -/
def escape_html_attr (s : Str) : Str :=
  replaceAll (str "\"") (str "&quot;") (escape_html s)

/-! ## The temporal normalizer (`_parse_dt`)

`datetime` values are embedded as naive wall-clock fields plus a `tzinfo`
tag.  The tz database behind `zoneinfo.ZoneInfo` is external data: a `TZDB`
gives, for any `tzinfo` tag, the absolute instant of a naive local time
(`toAbs`, what `utcoffset` determines) and the local fields of an absolute
instant (`fromAbs`, what `astimezone` computes).  Aware datetimes compare by
absolute instant, i.e. by `toAbs`. -/

structure NaiveDT where
  year : Nat
  month : Nat
  day : Nat
  hour : Nat
  minute : Nat
  second : Nat
deriving DecidableEq

/-- A `tzinfo` value: `dt.timezone.utc` or `ZoneInfo(name)`. -/
inductive TZKind where
  | utc : TZKind
  | zone (name : Str) : TZKind
deriving DecidableEq

/-- The timezone database, abstracted (see the module docstring). -/
structure TZDB where
  toAbs : TZKind → NaiveDT → Int
  fromAbs : TZKind → Int → NaiveDT

/-- An aware `datetime`. -/
structure AwareDT where
  naive : NaiveDT
  tz : TZKind
deriving DecidableEq

/-- `KYIV_TZ = ZoneInfo("Europe/Kyiv")`. -/
def KYIV : TZKind := .zone (str "Europe/Kyiv")

/-- The absolute instant of an aware datetime. -/
def absOf (db : TZDB) (a : AwareDT) : Int := db.toAbs a.tz a.naive

/-- `t.astimezone(KYIV_TZ)`. -/
def astimezoneKyiv (db : TZDB) (a : AwareDT) : AwareDT :=
  ⟨db.fromAbs KYIV (absOf db a), KYIV⟩

/-! `strptime` field matching.  CPython's `_strptime` builds one regex from
the format (compiled with `re.IGNORECASE`) whose directives are ordered
alternations — `%m` is `1[0-2]|0[1-9]|[1-9]`, `%d` is
`3[01]|[12]\d|0[1-9]|[1-9]`, `%H` is `2[0-3]|[0-1]\d|\d`, `%M` is
`[0-5]\d|\d`, `%S` is `6[0-1]|[0-5]\d|\d`, `%Y` is `\d\d\d\d` — takes the
backtracking-preferred parse, raises "unconverted data remains" when that
parse leaves input, and then the `datetime` constructor checks the ranges
the regexes do not (day against month length, second ≤ 59, year ≥ 1).
Each `alts` function lists the `(value, remainder)` alternatives in the
regex's preference order. -/

def digitVal (c : Char) : Nat := c.toNat - 48

/-- `%m`: `1[0-2]|0[1-9]|[1-9]`. -/
def altsM : Str → List (Nat × Str)
  | a :: b :: r =>
    (if a == '1' && (48 ≤ b.toNat && b.toNat ≤ 50) then [(10 + digitVal b, r)] else []) ++
    (if a == '0' && (49 ≤ b.toNat && b.toNat ≤ 57) then [(digitVal b, r)] else []) ++
    (if 49 ≤ a.toNat && a.toNat ≤ 57 then [(digitVal a, b :: r)] else [])
  | [a] => if 49 ≤ a.toNat && a.toNat ≤ 57 then [(digitVal a, [])] else []
  | [] => []

/-- `%d`: `3[01]|[12]\d|0[1-9]|[1-9]`. -/
def altsD : Str → List (Nat × Str)
  | a :: b :: r =>
    (if a == '3' && (48 ≤ b.toNat && b.toNat ≤ 49) then [(30 + digitVal b, r)] else []) ++
    (if (a == '1' || a == '2') && isDigitCh b then [(10 * digitVal a + digitVal b, r)] else []) ++
    (if a == '0' && (49 ≤ b.toNat && b.toNat ≤ 57) then [(digitVal b, r)] else []) ++
    (if 49 ≤ a.toNat && a.toNat ≤ 57 then [(digitVal a, b :: r)] else [])
  | [a] => if 49 ≤ a.toNat && a.toNat ≤ 57 then [(digitVal a, [])] else []
  | [] => []

/-- `%H`: `2[0-3]|[0-1]\d|\d`. -/
def altsH : Str → List (Nat × Str)
  | a :: b :: r =>
    (if a == '2' && (48 ≤ b.toNat && b.toNat ≤ 51) then [(20 + digitVal b, r)] else []) ++
    (if (a == '0' || a == '1') && isDigitCh b then [(10 * digitVal a + digitVal b, r)] else []) ++
    (if isDigitCh a then [(digitVal a, b :: r)] else [])
  | [a] => if isDigitCh a then [(digitVal a, [])] else []
  | [] => []

/-- `%M`: `[0-5]\d|\d`. -/
def altsMin : Str → List (Nat × Str)
  | a :: b :: r =>
    (if (48 ≤ a.toNat && a.toNat ≤ 53) && isDigitCh b then
      [(10 * digitVal a + digitVal b, r)] else []) ++
    (if isDigitCh a then [(digitVal a, b :: r)] else [])
  | [a] => if isDigitCh a then [(digitVal a, [])] else []
  | [] => []

/-- `%S`: `6[0-1]|[0-5]\d|\d`. -/
def altsS : Str → List (Nat × Str)
  | a :: b :: r =>
    (if a == '6' && (48 ≤ b.toNat && b.toNat ≤ 49) then [(60 + digitVal b, r)] else []) ++
    (if (48 ≤ a.toNat && a.toNat ≤ 53) && isDigitCh b then
      [(10 * digitVal a + digitVal b, r)] else []) ++
    (if isDigitCh a then [(digitVal a, b :: r)] else [])
  | [a] => if isDigitCh a then [(digitVal a, [])] else []
  | [] => []

/-- `isLeap(y)` as the Gregorian calendar defines it. -/
def isLeap (y : Nat) : Bool := (y % 4 == 0 && y % 100 != 0) || y % 400 == 0

/-- Days in a month of the (proleptic) Gregorian calendar. -/
def daysInMonth (y m : Nat) : Nat :=
  if m == 2 then (if isLeap y then 29 else 28)
  else if m == 4 || m == 6 || m == 9 || m == 11 then 30
  else 31

/-- The `datetime`-constructor checks `strptime`'s regexes leave open. -/
def validYMD (y m d : Nat) : Bool :=
  1 ≤ y && 1 ≤ m && m ≤ 12 && 1 ≤ d && d ≤ daysInMonth y m

/-- `datetime.strptime(s, "%Y%m%dT%H%M%S")`: four year digits, then the
preferred parse of `%m%d`, the literal `T` (case-insensitive, as the whole
`_strptime` regex is), then `%H%M%S`; error when that parse leaves input or
the constructor rejects the values. -/
def strptimeDT (s : Str) : Option NaiveDT :=
  match s with
  | y1 :: y2 :: y3 :: y4 :: r0 =>
    if isDigitCh y1 && isDigitCh y2 && isDigitCh y3 && isDigitCh y4 then
      let y := 1000 * digitVal y1 + 100 * digitVal y2 + 10 * digitVal y3 + digitVal y4
      match (altsM r0).findSome? (fun mv =>
        (altsD mv.2).findSome? (fun dv =>
          match dv.2 with
          | t :: r2 =>
            if t == 'T' || t == 't' then
              (altsH r2).findSome? (fun hv =>
                (altsMin hv.2).findSome? (fun nv =>
                  (altsS nv.2).findSome? (fun sv =>
                    some (mv.1, dv.1, hv.1, nv.1, sv.1, sv.2))))
            else none
          | [] => none)) with
      | some (mo, d, h, mi, se, rest) =>
        if rest.isEmpty && validYMD y mo d && h ≤ 23 && mi ≤ 59 && se ≤ 59 then
          some ⟨y, mo, d, h, mi, se⟩
        else none
      | none => none
    else none
  | _ => none

/-- `datetime.strptime(s, "%Y%m%d").date()`. -/
def strptimeD (s : Str) : Option (Nat × Nat × Nat) :=
  match s with
  | y1 :: y2 :: y3 :: y4 :: r0 =>
    if isDigitCh y1 && isDigitCh y2 && isDigitCh y3 && isDigitCh y4 then
      let y := 1000 * digitVal y1 + 100 * digitVal y2 + 10 * digitVal y3 + digitVal y4
      match (altsM r0).findSome? (fun mv =>
        (altsD mv.2).findSome? (fun dv => some (mv.1, dv.1, dv.2))) with
      | some (mo, d, rest) =>
        if rest.isEmpty && validYMD y mo d then some (y, mo, d) else none
      | none => none
    else none
  | _ => none

/-- The `ZoneInfo(tzid) if tzid else KYIV_TZ` choice. -/
def tzidOrKyiv : Option Str → TZKind
  | some z => .zone z
  | none => KYIV

/-- `_parse_dt(value, tzid)`: strip, then
 1. eight digits → local midnight tagged with the given zone or Kyiv
    (no conversion);
 2. trailing `Z` → parse as UTC, convert to Kyiv;
 3. otherwise → parse as naive, attach the given zone or Kyiv, convert
    to Kyiv.
`none` is the `ValueError` a malformed value raises. -/
def _parse_dt (db : TZDB) (value : Str) (tzid : Option Str) : Option AwareDT :=
  let v := pyStrip value
  if v.length == 8 && v.all isDigitCh then
    match strptimeD v with
    | some (y, mo, d) => some ⟨⟨y, mo, d, 0, 0, 0⟩, tzidOrKyiv tzid⟩
    | none => none
  else if v.getLast? == some 'Z' then
    match strptimeDT v.dropLast with
    | some n => some (astimezoneKyiv db ⟨n, .utc⟩)
    | none => none
  else
    match strptimeDT v with
    | some n => some (astimezoneKyiv db ⟨n, tzidOrKyiv tzid⟩)
    | none => none

/-! ## The event block parser (`parse_ics_events`) -/

structure Event where
  start : AwareDT
  end_ : AwareDT
  summary : Str
  description : Str
  location : Str
deriving DecidableEq

/-- The per-block accumulator `cur`: a dict whose keys range over the five
recognized field names, each holding `(tzid, value)`. -/
structure Accum where
  dtstart : Option (Option Str × Str) := none
  dtend : Option (Option Str × Str) := none
  vsummary : Option (Option Str × Str) := none
  vdescription : Option (Option Str × Str) := none
  vlocation : Option (Option Str × Str) := none
deriving DecidableEq

/-- `not cur` — the dict is empty. -/
def Accum.isEmptyA (c : Accum) : Bool :=
  c.dtstart == none && c.dtend == none && c.vsummary == none &&
  c.vdescription == none && c.vlocation == none

/-- `flush()`: build an `Event` from the accumulator.  `some none` — no
event and no error (empty accumulator, or a missing/empty start or end
value); `some (some e)` — the constructed event; `none` — a `ValueError`
from `_parse_dt` propagating. -/
def flush (db : TZDB) (cur : Accum) : Option (Option Event) :=
  if cur.isEmptyA then some none
  else
    let st := cur.dtstart.getD (none, [])
    let en := cur.dtend.getD (none, [])
    let summary := (cur.vsummary.getD (none, [])).2
    let description := (cur.vdescription.getD (none, [])).2
    let location := (cur.vlocation.getD (none, [])).2
    if st.2.isEmpty || en.2.isEmpty then some none
    else
      match _parse_dt db st.2 st.1 with
      | none => none
      | some s =>
        match _parse_dt db en.2 en.1 with
        | none => none
        | some e =>
          some (some ⟨s, e, pyStrip summary, pyStrip description, pyStrip location⟩)

/-- `re.search(r"TZID=([^;]+)", params)`: the capture of the leftmost
occurrence of `TZID=` followed by at least one non-`;` character. -/
def searchTZID : Str → Option Str
  | [] => none
  | c :: rest =>
    if (str "TZID=").isPrefixOf (c :: rest) then
      match (c :: rest).drop 5 with
      | a :: after => if a == ';' then searchTZID rest else some ((a :: after).takeWhile (fun x => x != ';'))
      | [] => searchTZID rest
    else searchTZID rest

/-- One recognized-key line inside a block: `key(;params)?:value`, an
optional `TZID=` parameter captured, the key stripped and uppercased,
last value wins. -/
def parseFieldLine (line : Str) (cur : Accum) : Accum :=
  if !line.contains ':' then cur
  else
    let left := line.takeWhile (fun c => c != ':')
    let value := line.drop (left.length + 1)
    let key0 := left.takeWhile (fun c => c != ';')
    let params := left.drop (key0.length + 1)
    let tzid := if left.contains ';' then searchTZID params else none
    let key := (pyStrip key0).map pyUpper
    let v := pyStrip value
    if key == str "DTSTART" then { cur with dtstart := some (tzid, v) }
    else if key == str "DTEND" then { cur with dtend := some (tzid, v) }
    else if key == str "SUMMARY" then { cur with vsummary := some (tzid, v) }
    else if key == str "DESCRIPTION" then { cur with vdescription := some (tzid, v) }
    else if key == str "LOCATION" then { cur with vlocation := some (tzid, v) }
    else cur

/-- The `for line in lines` state machine of `parse_ics_events`: `inEvent`
is the outside/inside flag, `cur` the accumulator, `acc` the events emitted
so far in block order.  `none` is a `ValueError` propagating out of
`flush`. -/
def parseLoop (db : TZDB) : List Str → Bool → Accum → List Event → Option (List Event)
  | [], _, _, acc => some acc
  | line :: rest, inEvent, cur, acc =>
    if line == str "BEGIN:VEVENT" then parseLoop db rest true {} acc
    else if line == str "END:VEVENT" then
      if inEvent then
        match flush db cur with
        | none => none
        | some evOpt => parseLoop db rest false {} (acc ++ evOpt.toList)
      else parseLoop db rest false cur acc
    else if !inEvent then parseLoop db rest inEvent cur acc
    else parseLoop db rest inEvent (parseFieldLine line cur) acc

/-- RFC5545 unfolding, one step of the loop: an empty physical line is kept;
a line starting with space or tab is appended (first character dropped) to
the last logical line, or lstripped into a line of its own when there is
none; any other line starts a new logical line. -/
def unfoldStep (out : List Str) (line : Str) : List Str :=
  if line.isEmpty then out ++ [line]
  else if line.head? == some ' ' || line.head? == some '\t' then
    match out with
    | [] => [pyLStrip line]
    | _ :: _ => out.dropLast ++ [out.getLast! ++ line.drop 1]
  else out ++ [line]

/-- The reassembled logical lines of a list of physical lines. -/
def unfoldLines (raw : List Str) : List Str := raw.foldl unfoldStep []

/-- `_unfold_ics_lines(ics_text)`. -/
def _unfold_ics_lines (ics_text : Str) : List Str := unfoldLines (pySplitlines ics_text)

/-- The events of the feed in block order (before the final sort). -/
def parseRaw (db : TZDB) (ics_text : Str) : Option (List Event) :=
  parseLoop db (_unfold_ics_lines ics_text) false {} []

/-- The sort key of `events.sort(key=lambda e: e.start)`: aware datetimes
compare by absolute instant. -/
def eventKey (db : TZDB) (e : Event) : Int := absOf db e.start

/-- Insert an event into a sorted run, after every earlier event of equal
key (so the sort below is stable, as Python's `list.sort` is). -/
def insEv (db : TZDB) (a : Event) : List Event → List Event
  | [] => [a]
  | b :: bs => if eventKey db a ≤ eventKey db b then a :: b :: bs else b :: insEv db a bs

/-- `events.sort(key=lambda e: e.start)` as a stable insertion sort
(extensionally equal to Python's stable sort). -/
def sortEvents (db : TZDB) : List Event → List Event
  | [] => []
  | a :: rest => insEv db a (sortEvents db rest)

/-- `parse_ics_events(ics_text)`. -/
def parse_ics_events (db : TZDB) (ics_text : Str) : Option (List Event) :=
  (parseRaw db ics_text).map (sortEvents db)

/-! ## Range filtering and message composition -/

/-- A `datetime.date`. -/
structure Date where
  year : Nat
  month : Nat
  day : Nat
deriving DecidableEq

/-- `date` comparison (lexicographic on the fields, as for valid dates). -/
def dateLe (a b : Date) : Bool :=
  a.year < b.year || (a.year == b.year &&
    (a.month < b.month || (a.month == b.month && a.day ≤ b.day)))

/-- `.date()` of a datetime. -/
def dateOf (n : NaiveDT) : Date := ⟨n.year, n.month, n.day⟩

/-- `ev.start.astimezone(KYIV_TZ).date()`. -/
def startDateKyiv (db : TZDB) (e : Event) : Date :=
  dateOf (astimezoneKyiv db e.start).naive

/-- `events_in_range(events, start_date, end_date)`: inclusive filter by
start date in Kyiv time. -/
def events_in_range (db : TZDB) (events : List Event) (start_date end_date : Date) :
    List Event :=
  events.filter (fun ev =>
    dateLe start_date (startDateKyiv db ev) && dateLe (startDateKyiv db ev) end_date)

/-! ## Date arithmetic

`date.toordinal()` (day 1 = 0001-01-01 of the proleptic Gregorian calendar)
and the calendar successor.  `start_day + dt.timedelta(days=i)` is modelled
as the `i`-fold successor, extensionally the same date for valid dates. -/

/-- Days before month `m` in year `y` (0 for January). -/
def daysBeforeMonth (y m : Nat) : Nat :=
  let base := [0, 0, 31, 59, 90, 120, 151, 181, 212, 243, 273, 304, 334].getD m 0
  if 3 ≤ m && isLeap y then base + 1 else base

/-- `date.toordinal()`. -/
def toOrdinal (d : Date) : Int :=
  365 * ((d.year : Int) - 1) + ((d.year : Int) - 1) / 4 - ((d.year : Int) - 1) / 100 +
    ((d.year : Int) - 1) / 400 + (daysBeforeMonth d.year d.month : Int) + (d.day : Int)

/-- `date.weekday()` (Monday = 0; 0001-01-01 is a Monday). -/
def weekday (d : Date) : Nat := ((toOrdinal d + 6) % 7).toNat

/-- A valid (representable) `datetime.date`. -/
def validDate (d : Date) : Bool :=
  1 ≤ d.year && 1 ≤ d.month && d.month ≤ 12 && 1 ≤ d.day && d.day ≤ daysInMonth d.year d.month

/-- The next calendar day. -/
def nextDay (d : Date) : Date :=
  if d.day < daysInMonth d.year d.month then ⟨d.year, d.month, d.day + 1⟩
  else if d.month < 12 then ⟨d.year, d.month + 1, 1⟩
  else ⟨d.year + 1, 1, 1⟩

/-! ## Message composition (`format_day`, `format_week_message`)

`now_kyiv()` is a network-free but clock-reading call: the current Kyiv
wall-clock time is passed in as a parameter `now`. -/

/-- `UA_DOW` (weekday names, Monday first). -/
def UA_DOW : List Str :=
  [str "Понеділок", str "Вівторок", str "Середа", str "Четвер",
   str "Пʼятниця", str "Субота", str "Неділя"]

/-- A decimal digit character. -/
def digitChar (n : Nat) : Char := Char.ofNat (48 + n % 10)

/-- `%02d` for the two-digit fields of `strftime` (all values printed are
at most two digits). -/
def pad2 (n : Nat) : Str := [digitChar (n / 10 % 10), digitChar (n % 10)]

/-- `fmt_date_short(d)` — `d.strftime("%d.%m")`. -/
def fmt_date_short (d : Date) : Str := pad2 d.day ++ '.' :: pad2 d.month

/-- `day_header(d)`. -/
def day_header (d : Date) : Str :=
  str "📅 <b>" ++ (UA_DOW.getD (weekday d) []) ++ str "</b> • <b>" ++ fmt_date_short d ++ str "</b>"

/-- `separator()`. -/
def separator : Str := str "━━━━━━━━━━━━━━━━━━━━"

/-- `hhmm(t)` — `t.astimezone(KYIV_TZ).strftime("%H:%M")`. -/
def hhmm (db : TZDB) (t : AwareDT) : Str :=
  let n := (astimezoneKyiv db t).naive
  pad2 n.hour ++ ':' :: pad2 n.minute

/-- `now_kyiv().strftime("%H:%M")` for the given wall clock. -/
def nowHM (now : NaiveDT) : Str := pad2 now.hour ++ ':' :: pad2 now.minute

/-- The per-event stanza of `format_day` (its trailing blank line included). -/
def eventStanza (db : TZDB) (ev : Event) : List Str :=
  let ds := split_summary ev.summary
  let teacher := extract_teacher ev.description
  let passcode := extract_passcode ev.description
  let place := classify_place ev.location ev.description
  let links := extract_zoom_links (ev.description ++ '\n' :: ev.location)
  let link := links.head?
  [str "🕒 <b>" ++ hhmm db ev.start ++ str "–" ++ hhmm db ev.end_ ++ str "</b>",
   str "📚 <b>" ++ escape_html ds.1 ++ str "</b>"] ++
  (match ds.2 with
   | some t => [str "🎓 " ++ t]
   | none => []) ++
  (match teacher with
   | some t => [str "👩‍🏫 " ++ escape_html t]
   | none => []) ++
  [escape_html place] ++
  (match link with
   | some l => [str "🔗 <a href=\"" ++ escape_html_attr l ++ str "\">Відкрити Zoom</a>",
                str "📎 <code>" ++ escape_html l ++ str "</code>"]
   | none => []) ++
  (match passcode with
   | some p => [str "🔑 Код доступу: <b>" ++ escape_html p ++ str "</b>"]
   | none => []) ++
  [[]]

/-- The trailing `while lines and lines[-1] == "": lines.pop()` loop. -/
def dropTrailingEmpties (ls : List Str) : List Str :=
  (ls.reverse.dropWhile List.isEmpty).reverse

/-- `format_day(events, day)`. -/
def format_day (db : TZDB) (events : List Event) (day : Date) : Str :=
  if events.isEmpty then joinWith '\n' [day_header day, [], str "— (пар немає)"]
  else
    joinWith '\n'
      (dropTrailingEmpties ([day_header day, []] ++ (events.map (eventStanza db)).flatten))

/-- `by_day[d].append(ev)`: append to the matching bucket, `none` for the
`KeyError` when no bucket has key `d`. -/
def bucketInsert (d : Date) (ev : Event) : List (Date × List Event) → Option (List (Date × List Event))
  | [] => none
  | (k, l) :: rest =>
    if k == d then some ((k, l ++ [ev]) :: rest)
    else
      match bucketInsert d ev rest with
      | some rest2 => some ((k, l) :: rest2)
      | none => none

/-- The `for ev in events` bucketing loop of `format_week_message`. -/
def bucketEvents (db : TZDB) : List Event → List (Date × List Event) → Option (List (Date × List Event))
  | [], bs => some bs
  | ev :: rest, bs =>
    match bucketInsert (startDateKyiv db ev) ev bs with
    | some bs2 => bucketEvents db rest bs2
    | none => none

/-- The dict keys `{start_day + timedelta(days=i) for i in range(count)}`,
in insertion order. -/
def weekKeys (start_day : Date) (count : Nat) : List Date :=
  (List.range count).map (fun i => nextDay^[i] start_day)

/-- `format_week_message(events, start_day, end_day)`: bucket the events by
Kyiv start date into a dict keyed by the days of the range, then one
separator-prefixed day block per key.  `none` is the `KeyError` raised for
an event whose date is not a key. -/
def format_week_message (db : TZDB) (now : NaiveDT) (events : List Event)
    (start_day end_day : Date) : Option Str :=
  let header := str "🗓️ <b>Розклад на тиждень</b>\n<b>" ++ fmt_date_short start_day ++
    str " – " ++ fmt_date_short end_day ++ str "</b>\n\n"
  let count := (toOrdinal end_day - toOrdinal start_day + 1).toNat
  let keys := weekKeys start_day count
  match bucketEvents db events (keys.map (fun d => (d, []))) with
  | none => none
  | some buckets =>
    let blocks := (buckets.map (fun kd => [separator, format_day db kd.2 kd.1])).flatten ++ [separator]
    some (header ++ joinWith '\n' blocks ++ str "\n\n⏱️ Оновлено: " ++ nowHM now)

/-! ## A concrete timezone database for concrete evaluations

`encodeNaive` is injective on in-range naive datetimes and `decodeNaive`
inverts it there, so under `dbId` an `astimezone` conversion leaves the
wall-clock fields of such datetimes unchanged. -/

/-- Mixed-radix encoding of naive wall-clock fields. -/
def encodeNaive (n : NaiveDT) : Int :=
  ((((n.year * 13 + n.month) * 32 + n.day) * 24 + n.hour) * 60 + n.minute) * 60 + n.second

/-- The inverse of `encodeNaive` on in-range fields. -/
def decodeNaive (t : Int) : NaiveDT :=
  let u := t.toNat
  ⟨u / (60 * 60 * 24 * 32 * 13), u / (60 * 60 * 24 * 32) % 13, u / (60 * 60 * 24) % 32,
   u / (60 * 60) % 24, u / 60 % 60, u % 60⟩

/-- A database in which every zone keeps wall-clock fields (offset 0). -/
def dbId : TZDB := ⟨fun _ n => encodeNaive n, fun _ t => decodeNaive t⟩

/-! ## C3: the folded-line reassembler -/

/-- C3. For every input text the reassembler works physical line by physical
line, and one step maps an empty line to a preserved empty logical line, a
line starting with space or tab to an append onto the immediately preceding
logical line with exactly that one leading character stripped (or, with no
preceding logical line, to a line of its own with its leading whitespace
stripped), and any other line to a new logical line. -/
theorem unfold_ics_line_rule (t : Str) (ls : List Str) (l : Str) :
    _unfold_ics_lines t = unfoldLines (pySplitlines t) ∧
    unfoldLines (ls ++ [l]) =
      (if l.isEmpty then unfoldLines ls ++ [l]
       else if l.head? == some ' ' || l.head? == some '\t' then
         (match unfoldLines ls with
          | [] => [pyLStrip l]
          | _ :: _ => (unfoldLines ls).dropLast ++ [(unfoldLines ls).getLast! ++ l.drop 1])
       else unfoldLines ls ++ [l]) := by
  constructor
  · rfl
  · show (ls ++ [l]).foldl unfoldStep [] = _
    rw [List.foldl_append]
    show unfoldStep (unfoldLines ls) l = _
    unfold unfoldStep
    rcases h : unfoldLines ls with _ | ⟨x, xs⟩ <;> simp [h]

/-! ## C2: the temporal normalizer -/

/-- The three value shapes, classified as the source's guards classify
them. -/
inductive DtShape where
  | dateOnly : DtShape
  | utcSuffixed : DtShape
  | naiveLocal : DtShape
deriving DecidableEq

/-- Which branch of `_parse_dt` a (stripped) value reaches. -/
def dtShape (v : Str) : DtShape :=
  if v.length == 8 && v.all isDigitCh then .dateOnly
  else if v.getLast? == some 'Z' then .utcSuffixed
  else .naiveLocal

/-- The normalizer as the amended claim describes it: a date-only token
parsing as a valid calendar date is local midnight tagged with the given
zone or the default zone (not converted); a `Z`-suffixed token parsing as a
datetime is an absolute UTC instant converted to the default zone; any
other token parsing as a naive datetime is attached to the given zone or
the default zone and converted to the default zone; a token its shape's
parser rejects is an error. -/
def parseDtSpec (db : TZDB) (value : Str) (tzid : Option Str) : Option AwareDT :=
  let v := pyStrip value
  match dtShape v with
  | .dateOnly =>
    (strptimeD v).map (fun ymd => ⟨⟨ymd.1, ymd.2.1, ymd.2.2, 0, 0, 0⟩, tzidOrKyiv tzid⟩)
  | .utcSuffixed => (strptimeDT v.dropLast).map (fun n => astimezoneKyiv db ⟨n, .utc⟩)
  | .naiveLocal => (strptimeDT v).map (fun n => astimezoneKyiv db ⟨n, tzidOrKyiv tzid⟩)

/-- C2 (amended). For every raw value, optional zone identifier and
timezone database, `_parse_dt` behaves exactly as the three-shape
description above. -/
theorem parse_dt_three_shapes (db : TZDB) (value : Str) (tzid : Option Str) :
    _parse_dt db value tzid = parseDtSpec db value tzid := by
  unfold _parse_dt parseDtSpec dtShape
  by_cases h8 : (pyStrip value).length == 8 && (pyStrip value).all isDigitCh
  · simp only [h8, if_true]
    cases strptimeD (pyStrip value) <;> simp
  · simp only [h8, if_false, Bool.false_eq_true]
    by_cases hz : (pyStrip value).getLast? == some 'Z'
    · simp only [hz, if_true]
      cases strptimeDT (pyStrip value).dropLast <;> simp
    · simp only [hz, if_false, Bool.false_eq_true]
      cases strptimeDT (pyStrip value) <;> simp

/-- C2, counterexample to the claim as stated: `"00000000"` is a token of
eight digits, yet `_parse_dt` raises a `ValueError` (here: `none`) instead
of producing local midnight in the default zone. -/
theorem parse_dt_eight_digits_counterexample :
    (str "00000000").length = 8 ∧ (str "00000000").all isDigitCh = true ∧
    _parse_dt dbId (str "00000000") none = none := by decide

/-! ## C4: dropped and constructed blocks -/

/-- The accumulated `(tzid, value)` of `DTSTART`, defaulting as `flush`
defaults it. -/
def accStart (cur : Accum) : Option Str × Str := cur.dtstart.getD (none, [])

/-- The accumulated `(tzid, value)` of `DTEND`, defaulting as `flush`
defaults it. -/
def accEnd (cur : Accum) : Option Str × Str := cur.dtend.getD (none, [])

/-- `flush` as the amended claim describes it: a block missing a start or
end value contributes nothing and raises nothing; a block with both whose
values both parse contributes exactly one constructed event; a block with
both where a value fails to parse raises (here: `none`). -/
def flushSpec (db : TZDB) (cur : Accum) : Option (Option Event) :=
  if (accStart cur).2.isEmpty || (accEnd cur).2.isEmpty then some none
  else
    match _parse_dt db (accStart cur).2 (accStart cur).1,
          _parse_dt db (accEnd cur).2 (accEnd cur).1 with
    | some s, some e =>
      some (some ⟨s, e, pyStrip (cur.vsummary.getD (none, [])).2,
        pyStrip (cur.vdescription.getD (none, [])).2,
        pyStrip (cur.vlocation.getD (none, [])).2⟩)
    | _, _ => none

/-- C4 (amended). For every accumulated block, `flush` drops a block with a
missing or empty start or end value silently, constructs exactly one event
when both values are present and parse, and raises when one fails to
parse. -/
theorem flush_block_rule (db : TZDB) (cur : Accum) :
    flush db cur = flushSpec db cur := by
  unfold flush flushSpec
  by_cases he : cur.isEmptyA
  · have h1 : cur.dtstart = none := by
      unfold Accum.isEmptyA at he
      simp at he
      exact he.1.1.1.1
    simp [he, accStart, h1]
  · simp only [he, Bool.false_eq_true, if_false]
    by_cases hm : (accStart cur).2.isEmpty || (accEnd cur).2.isEmpty
    · simp [accStart, accEnd] at hm
      simp [accStart, accEnd, hm]
    · simp [accStart, accEnd] at hm ⊢
      simp [hm]
      cases _parse_dt db (cur.dtstart.getD (none, [])).2 (cur.dtstart.getD (none, [])).1 <;>
        cases _parse_dt db (cur.dtend.getD (none, [])).2 (cur.dtend.getD (none, [])).1 <;> simp

/-- C4, counterexample to the claim as stated: a block holding both a start
and an end field whose values are malformed does not yield an event — the
whole parse raises (here: `none`). -/
theorem flush_malformed_counterexample :
    parse_ics_events dbId (str "BEGIN:VEVENT\nDTSTART:XYZ\nDTEND:XYZ\nEND:VEVENT") = none := by
  decide

/-! ## C6: the summary splitter -/

/-- The session-type lookup of one separator attempt: the stripped parts of
the split, and — when there are at least two — the first stem contained in
the lowercased last part. -/
def sepTypeFind (sep : Char) (s : Str) : Option Str :=
  let parts := (splitOnChar sep s).map pyStrip
  if 2 ≤ parts.length then typeLoop TYPE_WORDS ((parts.getLast?.getD []).map pyLower)
  else none

/-- The discipline of a successful separator attempt: the remaining left
parts rejoined by the same separator. -/
def sepLeft (sep : Char) (s : Str) : Str :=
  pyStrip (List.intercalate [sep] (((splitOnChar sep s).map pyStrip).dropLast))

/-- C6. The splitter first splits the stripped title on the em-dash: when
that split has at least two parts and the lowercased last part contains a
session-type stem, the result is the left parts rejoined by the em-dash and
the stem's canonical label; only when the em-dash attempt finds no stem is
the same procedure retried with the hyphen; and when neither attempt finds
a stem the whole stripped title is the discipline and the type is absent. -/
theorem split_summary_priority (summary : Str) :
    (∀ v, sepTypeFind '—' (pyStrip summary) = some v →
      split_summary summary = (sepLeft '—' (pyStrip summary), some v)) ∧
    (sepTypeFind '—' (pyStrip summary) = none →
      ∀ v, sepTypeFind '-' (pyStrip summary) = some v →
        split_summary summary = (sepLeft '-' (pyStrip summary), some v)) ∧
    (sepTypeFind '—' (pyStrip summary) = none → sepTypeFind '-' (pyStrip summary) = none →
      split_summary summary = (pyStrip summary, none)) := by
  unfold split_summary sepTypeFind sepLeft
  refine ⟨?_, ?_, ?_⟩
  · intro v hv
    simp only at hv ⊢
    rw [hv]
  · intro hem v hv
    simp only at hem hv ⊢
    rw [hem, hv]
  · intro hem hhy
    simp only at hem hhy ⊢
    rw [hem, hhy]

/-! ## C8: teacher detection -/

theorem teacherPatLoop_eq_findSome (ps : List RE) (line : Str) :
    teacherPatLoop ps line = ps.findSome? (fun p => (reCapturePlusAll p line).map pyStrip) := by
  induction ps with
  | nil => rfl
  | cons p rest ih =>
    unfold teacherPatLoop
    rw [List.findSome?_cons]
    cases reCapturePlusAll p line <;> simp [ih]

theorem teacherLineLoop_eq_findSome (lines : List Str) :
    teacherLineLoop lines = lines.findSome? (teacherPatLoop rolePatterns) := by
  induction lines with
  | nil => rfl
  | cons line rest ih =>
    unfold teacherLineLoop
    rw [List.findSome?_cons]
    cases teacherPatLoop rolePatterns line <;> simp [ih]

/-- Teacher detection as the amended claim describes it: normalize literal
escaped-newline sequences (and only those — zero-width characters are not
removed), split into non-empty stripped lines, and return the stripped
capture of the first line/pattern pair that matches, testing the lines in
order against the fixed ordered pattern list; absent when the description
is empty or no line matches. -/
def extractTeacherSpec (description : Str) : Option Str :=
  if description.isEmpty then none
  else
    (((pySplitlines (replaceAll (str "\\n") (str "\n") description)).map pyStrip).filter
      (fun l => !l.isEmpty)).findSome?
      (fun line => rolePatterns.findSome? (fun p => (reCapturePlusAll p line).map pyStrip))

/-- C8 (amended). `extract_teacher` is exactly that description. -/
theorem extract_teacher_amended (description : Str) :
    extract_teacher description = extractTeacherSpec description := by
  unfold extract_teacher extractTeacherSpec
  have hp : teacherPatLoop rolePatterns =
      fun line => rolePatterns.findSome? (fun p => (reCapturePlusAll p line).map pyStrip) :=
    funext (teacherPatLoop_eq_findSome rolePatterns)
  rw [teacherLineLoop_eq_findSome, hp]

/-- C8, counterexample to the claim as stated: zero-width characters are
not normalized out of the description, so a zero-width space (U+200B) in
front of a role prefix defeats every pattern and the teacher is reported
absent, while the same line without it matches. -/
theorem extract_teacher_zero_width_counterexample :
    extract_teacher (str "​Доц.: Іванов") = none ∧
    extract_teacher (str "Доц.: Іванов") = some (str "Іванов") := by decide

/-! ## C9: place classification -/

/-- Place classification as the amended claim orders the priorities: with
an online hint and a room-number match, the combined label; with only the
hint, the online-only label; else with a room-number match, the room-only
label; else the stripped location with the location marker when it is
non-empty after stripping, and the fixed placeholder otherwise. -/
def classifyPlaceSpec (location description : Str) : Str :=
  let blob := (location ++ '\n' :: description).map pyLower
  let hasOnline := strContains blob (str "online") || strContains blob (str "zoom")
  match hasOnline, roomSearch blob with
  | true, some g => str "🌐 Online (Zoom) • 🏫 " ++ roomLabel g
  | true, none => str "🌐 Online (Zoom)"
  | false, some g => str "🏫 " ++ roomLabel g
  | false, none =>
    if !(pyStrip location).isEmpty then str "📍 " ++ pyStrip location
    else str "📍 (місце не вказано)"

/-- C9 (amended). `classify_place` is exactly that priority order. -/
theorem classify_place_priority (location description : Str) :
    classify_place location description = classifyPlaceSpec location description := by
  unfold classify_place classifyPlaceSpec
  by_cases h : strContains ((location ++ '\n' :: description).map pyLower) (str "online") ||
      strContains ((location ++ '\n' :: description).map pyLower) (str "zoom") <;>
    simp only [h, if_true, if_false, Bool.false_eq_true] <;>
    cases roomSearch ((location ++ '\n' :: description).map pyLower) <;> simp

/-- C9, counterexample to the claim as stated: a whitespace-only location
(with no online hint and no room pattern) yields the fixed placeholder, not
the raw location verbatim behind a location marker. -/
theorem classify_place_blank_location_counterexample :
    classify_place (str " ") [] = str "📍 (місце не вказано)" ∧
    classify_place (str " ") [] ≠ str "📍 " ++ str " " := by decide

/-! ## C5: the final sort is ascending and stable -/

theorem mem_insEv {db : TZDB} {a x : Event} {l : List Event} :
    x ∈ insEv db a l ↔ x = a ∨ x ∈ l := by
  induction l with
  | nil => simp [insEv]
  | cons b bs ih =>
    unfold insEv
    by_cases h : eventKey db a ≤ eventKey db b
    · simp [h]
    · simp only [h, if_false, List.mem_cons, ih]
      tauto

theorem pairwise_insEv {db : TZDB} {a : Event} {l : List Event}
    (h : List.Pairwise (fun x y => eventKey db x ≤ eventKey db y) l) :
    List.Pairwise (fun x y => eventKey db x ≤ eventKey db y) (insEv db a l) := by
  induction l with
  | nil => simp [insEv]
  | cons b bs ih =>
    rcases List.pairwise_cons.mp h with ⟨hb, hbs⟩
    unfold insEv
    by_cases hle : eventKey db a ≤ eventKey db b
    · rw [if_pos hle]
      refine List.pairwise_cons.mpr ⟨?_, h⟩
      intro y hy
      rcases List.mem_cons.mp hy with rfl | hy'
      · exact hle
      · exact le_trans hle (hb y hy')
    · rw [if_neg hle]
      refine List.pairwise_cons.mpr ⟨?_, ih hbs⟩
      intro y hy
      rcases mem_insEv.mp hy with rfl | hy'
      · push_neg at hle
        exact le_of_lt hle
      · exact hb y hy'

theorem sortEvents_pairwise (db : TZDB) (l : List Event) :
    List.Pairwise (fun x y => eventKey db x ≤ eventKey db y) (sortEvents db l) := by
  induction l with
  | nil => simp [sortEvents]
  | cons a rest ih => exact pairwise_insEv ih

theorem filter_insEv (db : TZDB) (a : Event) (l : List Event) (k : Int) :
    (insEv db a l).filter (fun e => eventKey db e == k) =
      (if eventKey db a == k then a :: l.filter (fun e => eventKey db e == k)
       else l.filter (fun e => eventKey db e == k)) := by
  induction l with
  | nil =>
    by_cases hak : eventKey db a == k <;> simp [insEv, List.filter_cons, hak]
  | cons b bs ih =>
    unfold insEv
    by_cases hle : eventKey db a ≤ eventKey db b
    · rw [if_pos hle]
      by_cases hak : eventKey db a == k <;> simp [List.filter_cons, hak]
    · rw [if_neg hle]
      rw [List.filter_cons, ih]
      by_cases hbk : eventKey db b == k
      · by_cases hak : eventKey db a == k
        · exfalso
          push_neg at hle
          have h1 : eventKey db b = k := by simpa using hbk
          have h2 : eventKey db a = k := by simpa using hak
          omega
        · simp [hbk, hak, List.filter_cons]
      · by_cases hak : eventKey db a == k <;> simp [hbk, hak, List.filter_cons]

theorem filter_sortEvents (db : TZDB) (l : List Event) (k : Int) :
    (sortEvents db l).filter (fun e => eventKey db e == k) =
      l.filter (fun e => eventKey db e == k) := by
  induction l with
  | nil => rfl
  | cons a rest ih =>
    show (insEv db a (sortEvents db rest)).filter _ = _
    rw [filter_insEv, ih, List.filter_cons]

/-- C5. For every database, feed text and raw (block-order) parse result:
the parser's returned list is the raw list sorted; that list is sorted
ascending by start instant; and for every start instant the events carrying
it appear in the same relative order as their source blocks did (the sort
is stable). -/
theorem parse_events_sorted_stable (db : TZDB) (text : Str) (l : List Event)
    (h : parseRaw db text = some l) :
    parse_ics_events db text = some (sortEvents db l) ∧
    List.Pairwise (fun a b => eventKey db a ≤ eventKey db b) (sortEvents db l) ∧
    ∀ k : Int, (sortEvents db l).filter (fun e => eventKey db e == k) =
      l.filter (fun e => eventKey db e == k) := by
  refine ⟨?_, sortEvents_pairwise db l, fun k => filter_sortEvents db l k⟩
  unfold parse_ics_events
  rw [h]
  rfl

/-- A feed of two blocks whose events arrive end-first. -/
def feedStable : Str :=
  str "BEGIN:VEVENT\nDTSTART:20240101T100000\nDTEND:20240101T110000\nSUMMARY:B\nEND:VEVENT\nBEGIN:VEVENT\nDTSTART:20240101T090000\nDTEND:20240101T100000\nSUMMARY:A\nEND:VEVENT"

def eventB : Event :=
  ⟨⟨⟨2024, 1, 1, 10, 0, 0⟩, KYIV⟩, ⟨⟨2024, 1, 1, 11, 0, 0⟩, KYIV⟩, str "B", [], []⟩

def eventA : Event :=
  ⟨⟨⟨2024, 1, 1, 9, 0, 0⟩, KYIV⟩, ⟨⟨2024, 1, 1, 10, 0, 0⟩, KYIV⟩, str "A", [], []⟩

theorem parse_events_sorted_stable_witness :
    parse_ics_events dbId feedStable = some (sortEvents dbId [eventB, eventA]) ∧
    List.Pairwise (fun a b => eventKey dbId a ≤ eventKey dbId b)
      (sortEvents dbId [eventB, eventA]) :=
  ⟨(parse_events_sorted_stable dbId feedStable [eventB, eventA] (by decide)).1,
   (parse_events_sorted_stable dbId feedStable [eventB, eventA] (by decide)).2.1⟩

/-! ## C7: characters of extracted links -/

theorem toNat_charOfNat {m : Nat} (h : m < 55296) : (Char.ofNat m).toNat = m := by
  unfold Char.ofNat
  have hv : m.isValidChar := Or.inl (by omega)
  rw [dif_pos hv]
  simp [Char.ofNatAux, Char.toNat, UInt32.toNat, BitVec.toNat_ofNatLt]

theorem urlSpecials_mem_le {m : Nat} (h : urlSpecials.contains m = true) : m ≤ 126 := by
  simp [urlSpecials] at h
  omega

theorem isUrlChar_ascii {c : Char} (h : isUrlChar c = true) : c.toNat ≤ 127 := by
  unfold isUrlChar at h
  simp only [Bool.or_eq_true, Bool.and_eq_true, decide_eq_true_eq] at h
  rcases h with ((h | h) | h) | h
  · omega
  · omega
  · omega
  · exact le_trans (urlSpecials_mem_le h) (by omega)

/-- The non-ASCII code points `URL_RE`'s class accepts under `re.IGNORECASE`
are exactly ſ, ı, İ and K. -/
theorem isUrlBodyChar_cases {c : Char} (h : isUrlBodyChar c = true) :
    isUrlChar c = true ∨ c = 'ſ' ∨ c = 'ı' ∨ c = 'İ' ∨ c = 'K' := by
  unfold isUrlBodyChar at h
  simp only [Bool.or_eq_true, beq_iff_eq] at h
  rcases h with (hl | hs) | hi
  · unfold pyLower at hl
    split_ifs at hl with h1 h2 h3 h4 h5 h6
    · left
      unfold isUrlChar
      simp only [Bool.and_eq_true, decide_eq_true_eq] at h1
      simp only [Bool.or_eq_true, Bool.and_eq_true, decide_eq_true_eq]
      exact Or.inl (Or.inl (Or.inr ⟨by omega, by omega⟩))
    · exfalso
      simp only [Bool.and_eq_true, decide_eq_true_eq] at h2
      unfold isUrlChar at hl
      rw [toNat_charOfNat (by omega)] at hl
      simp only [Bool.or_eq_true, Bool.and_eq_true, decide_eq_true_eq] at hl
      rcases hl with ((hl | hl) | hl) | hl
      · omega
      · omega
      · omega
      · have := urlSpecials_mem_le hl
        omega
    · exfalso
      simp only [Bool.and_eq_true, decide_eq_true_eq] at h3
      unfold isUrlChar at hl
      rw [toNat_charOfNat (by omega)] at hl
      simp only [Bool.or_eq_true, Bool.and_eq_true, decide_eq_true_eq] at hl
      rcases hl with ((hl | hl) | hl) | hl
      · omega
      · omega
      · omega
      · have := urlSpecials_mem_le hl
        omega
    · exfalso
      simp only [beq_iff_eq] at h4
      unfold isUrlChar at hl
      rw [toNat_charOfNat (by omega)] at hl
      simp only [Bool.or_eq_true, Bool.and_eq_true, decide_eq_true_eq] at hl
      rcases hl with ((hl | hl) | hl) | hl
      · omega
      · omega
      · omega
      · have := urlSpecials_mem_le hl
        omega
    · right; right; right; left
      simp only [beq_iff_eq] at h5
      have := Char.ofNat_toNat c
      rw [h5] at this
      exact this.symm
    · right; right; right; right
      simp only [beq_iff_eq] at h6
      have := Char.ofNat_toNat c
      rw [h6] at this
      exact this.symm
    · left
      exact hl
  · right; left; exact hs
  · right; right; left; exact hi

theorem take_takeWhile_length {α : Type} (p : α → Bool) (l : List α) :
    l.take (l.takeWhile p).length = l.takeWhile p := by
  induction l with
  | nil => simp
  | cons a rest ih =>
    by_cases h : p a <;> simp [List.takeWhile_cons, h, ih]

/-- Every character of a `URL_RE` match is in the ASCII class or one of the
four case-fold extras. -/
theorem matchUrlAt_chars {s : Str} {k : Nat} (h : matchUrlAt s = some k) :
    ∀ c ∈ s.take k, isUrlChar c = true ∨ c = 'ſ' ∨ c = 'ı' ∨ c = 'İ' ∨ c = 'K' := by
  match s with
  | [] => simp [matchUrlAt] at h
  | [a] => simp [matchUrlAt] at h
  | [a, b] => simp [matchUrlAt] at h
  | [a, b, c0] => simp [matchUrlAt] at h
  | a :: b :: c0 :: d :: rest =>
  simp only [matchUrlAt] at h
  split at h
  case isFalse => simp at h
  rename_i hsch
  split at h
  case _ e rest2 =>
    simp only [Bool.and_eq_true, Bool.or_eq_true, beq_iff_eq] at hsch
    obtain ⟨⟨⟨ha, hb⟩, hc0⟩, hd⟩ := hsch
    have pa : isUrlChar a = true := by rcases ha with rfl | rfl <;> decide
    have pb : isUrlChar b = true := by rcases hb with rfl | rfl <;> decide
    have pc0 : isUrlChar c0 = true := by rcases hc0 with rfl | rfl <;> decide
    have pd : isUrlChar d = true := by rcases hd with rfl | rfl <;> decide
    split at h
    · rename_i hes
      simp only [Bool.or_eq_true, beq_iff_eq] at hes
      have pe : isUrlChar e = true ∨ e = 'ſ' := by
        rcases hes with (rfl | rfl) | rfl
        · exact Or.inl (by decide)
        · exact Or.inl (by decide)
        · exact Or.inr rfl
      split at h
      case _ f g h3 rest3 =>
        split at h
        · rename_i hsl
          simp only [Bool.and_eq_true, beq_iff_eq] at hsl
          obtain ⟨⟨rfl, rfl⟩, rfl⟩ := hsl
          split at h
          · simp at h
          · rename_i hbody
            have hk := Option.some.inj h
            subst hk
            intro c hc
            rw [show (8 : Nat) + (rest3.takeWhile isUrlBodyChar).length =
                (rest3.takeWhile isUrlBodyChar).length + 8 from by omega] at hc
            simp only [List.take_succ_cons, List.mem_cons] at hc
            have htk : rest3.take (rest3.takeWhile isUrlBodyChar).length =
                rest3.takeWhile isUrlBodyChar := take_takeWhile_length _ _
            rcases hc with rfl | rfl | rfl | rfl | rfl | rfl | rfl | rfl | hc
            · exact Or.inl pa
            · exact Or.inl pb
            · exact Or.inl pc0
            · exact Or.inl pd
            · rcases pe with hpe | rfl
              · exact Or.inl hpe
              · exact Or.inr (Or.inl rfl)
            · exact Or.inl (by decide)
            · exact Or.inl (by decide)
            · exact Or.inl (by decide)
            · rw [htk] at hc
              exact isUrlBodyChar_cases (List.mem_takeWhile_imp hc)
        · simp at h
      case _ x hx => simp at h
    · rename_i hes
      split at h
      case _ f1 g1 h1 rest3 heq =>
        obtain ⟨rfl, rfl⟩ : e = f1 ∧ rest2 = g1 :: h1 :: rest3 := by
          injection heq with ha1 ha2
          exact ⟨ha1, ha2⟩
        split at h
        · rename_i hsl
          simp only [Bool.and_eq_true, beq_iff_eq] at hsl
          obtain ⟨⟨rfl, rfl⟩, rfl⟩ := hsl
          split at h
          · simp at h
          · rename_i hbody
            have hk := Option.some.inj h
            subst hk
            intro c hc
            rw [show (7 : Nat) + (rest3.takeWhile isUrlBodyChar).length =
                (rest3.takeWhile isUrlBodyChar).length + 7 from by omega] at hc
            simp only [List.take_succ_cons, List.mem_cons] at hc
            have htk : rest3.take (rest3.takeWhile isUrlBodyChar).length =
                rest3.takeWhile isUrlBodyChar := take_takeWhile_length _ _
            rcases hc with rfl | rfl | rfl | rfl | rfl | rfl | rfl | hc
            · exact Or.inl pa
            · exact Or.inl pb
            · exact Or.inl pc0
            · exact Or.inl pd
            · exact Or.inl (by decide)
            · exact Or.inl (by decide)
            · exact Or.inl (by decide)
            · rw [htk] at hc
              exact isUrlBodyChar_cases (List.mem_takeWhile_imp hc)
        · simp at h
      case _ x hx => simp at h
  case _ hne => simp at h

theorem findallAux_chars :
    ∀ (s : Str) (n : Nat) (l : Str), l ∈ findallAux n s → ∀ c ∈ l,
      isUrlChar c = true ∨ c = 'ſ' ∨ c = 'ı' ∨ c = 'İ' ∨ c = 'K' := by
  intro s
  induction s with
  | nil =>
    intro n l hl
    cases n <;> simp [findallAux] at hl
  | cons a rest ih =>
    intro n l hl
    cases n with
    | succ m =>
      exact ih m l (by simpa [findallAux] using hl)
    | zero =>
      rw [findallAux] at hl
      cases hm : matchUrlAt (a :: rest) with
      | some k =>
        rw [hm] at hl
        simp only [List.mem_cons] at hl
        rcases hl with rfl | h2
        · exact matchUrlAt_chars hm
        · exact ih (k - 1) l h2
      | none =>
        rw [hm] at hl
        exact ih 0 l hl

theorem mem_extract_zoom_links {text l : Str} (hl : l ∈ extract_zoom_links text) :
    l ∈ findallUrls (_normalize_for_links text) := by
  unfold extract_zoom_links at hl
  rcases List.mem_append.mp hl with h | h
  · exact (List.mem_filter.mp h).1
  · exact (List.mem_filter.mp h).1

/-- C7 (amended). Every character of every link the extractor returns
either lies in the strict ASCII URL character class (and is ASCII) or is
one of the four case-fold equivalents ſ, ı, İ, K that `re.IGNORECASE`
folds into it; in particular no Cyrillic (or other non-folding) letter
adjacent to a link is ever absorbed. -/
theorem extract_links_chars (text l : Str) (c : Char)
    (hl : l ∈ extract_zoom_links text) (hc : c ∈ l) :
    (isUrlChar c = true ∧ c.toNat ≤ 127) ∨ c = 'ſ' ∨ c = 'ı' ∨ c = 'İ' ∨ c = 'K' := by
  have h1 := findallAux_chars (_normalize_for_links text) 0 l
    (mem_extract_zoom_links hl) c hc
  rcases h1 with h | h
  · exact Or.inl ⟨h, isUrlChar_ascii h⟩
  · exact Or.inr h

theorem extract_links_chars_witness :
    (isUrlChar 'h' = true ∧ 'h'.toNat ≤ 127) ∨ 'h' = 'ſ' ∨ 'h' = 'ı' ∨ 'h' = 'İ' ∨ 'h' = 'K' :=
  extract_links_chars (str "Приєднатися: https://zoom.us/j/123ідентифікатор")
    (str "https://zoom.us/j/123") 'h' (by decide) (by decide)

/-- C7, counterexample to the claim as stated: `re.IGNORECASE` case-folds
ſ (U+017F, a non-ASCII letter) onto the scheme's `s`, so the returned match
for this text contains a non-ASCII letter. -/
theorem url_casefold_counterexample :
    extract_zoom_links (str "httpſ://a") = [str "httpſ://a"] ∧
    'ſ' ∈ str "httpſ://a" ∧ 127 < 'ſ'.toNat := by decide

/-! ## C10: the week composer's bucketing domain -/

theorem daysInMonth_pos (y m : Nat) : 1 ≤ daysInMonth y m := by
  unfold daysInMonth
  split_ifs <;> omega

theorem monthStep (y m : Nat) (h1 : 1 ≤ m) (h2 : m ≤ 11) :
    daysBeforeMonth y m + daysInMonth y m = daysBeforeMonth y (m + 1) := by
  cases hL : isLeap y <;>
    (interval_cases m <;> simp [daysBeforeMonth, daysInMonth, hL])

theorem monthBound (y m m' : Nat) (h1 : 1 ≤ m) (h2 : m < m') (h3 : m' ≤ 12) :
    daysBeforeMonth y m + daysInMonth y m ≤ daysBeforeMonth y m' := by
  have h4 : m ≤ 11 := by omega
  cases hL : isLeap y <;>
    (interval_cases m <;> interval_cases m' <;> simp [daysBeforeMonth, daysInMonth, hL])

theorem leapStep (y : Nat) (hy : 1 ≤ y) :
    ((y : Int)) / 4 - (y : Int) / 100 + (y : Int) / 400 =
      ((y : Int) - 1) / 4 - ((y : Int) - 1) / 100 + ((y : Int) - 1) / 400 +
        (if isLeap y then 1 else 0) := by
  have h4 : (y : Int) % 4 = ((y % 4 : Nat) : Int) := by push_cast; omega
  have h100 : (y : Int) % 100 = ((y % 100 : Nat) : Int) := by push_cast; omega
  have h400 : (y : Int) % 400 = ((y % 400 : Nat) : Int) := by push_cast; omega
  cases hL : isLeap y
  · simp only [hL, Bool.false_eq_true, if_false]
    unfold isLeap at hL
    simp only [Bool.or_eq_false_iff, Bool.and_eq_false_iff, beq_eq_false_iff_ne,
      bne_eq_false_iff_eq, ne_eq] at hL
    obtain ⟨h1, h2⟩ := hL
    rcases h1 with h1 | h1 <;> omega
  · simp only [hL, if_true]
    unfold isLeap at hL
    simp only [Bool.or_eq_true, Bool.and_eq_true, beq_iff_eq, bne_iff_ne, ne_eq] at hL
    rcases hL with ⟨h1, h2⟩ | h1 <;> omega

theorem daysInMonth_twelve (y : Nat) : daysInMonth y 12 = 31 := by
  simp [daysInMonth]

theorem validDate_nextDay {d : Date} (h : validDate d = true) :
    validDate (nextDay d) = true := by
  unfold validDate at h
  simp only [Bool.and_eq_true, decide_eq_true_eq] at h
  obtain ⟨⟨⟨⟨hy, hm1⟩, hm2⟩, hd1⟩, hd2⟩ := h
  unfold nextDay
  split_ifs with h1 h2
  · unfold validDate
    simp only [Bool.and_eq_true, decide_eq_true_eq]
    exact ⟨⟨⟨⟨hy, hm1⟩, hm2⟩, by omega⟩, by omega⟩
  · unfold validDate
    simp only [Bool.and_eq_true, decide_eq_true_eq]
    exact ⟨⟨⟨⟨hy, by omega⟩, by omega⟩, by omega⟩, daysInMonth_pos _ _⟩
  · unfold validDate
    simp only [Bool.and_eq_true, decide_eq_true_eq]
    refine ⟨⟨⟨⟨by omega, by omega⟩, by omega⟩, by omega⟩, ?_⟩
    exact daysInMonth_pos _ _

set_option maxHeartbeats 1000000 in
theorem toOrdinal_nextDay {d : Date} (h : validDate d = true) :
    toOrdinal (nextDay d) = toOrdinal d + 1 := by
  unfold validDate at h
  simp only [Bool.and_eq_true, decide_eq_true_eq] at h
  obtain ⟨⟨⟨⟨hy, hm1⟩, hm2⟩, hd1⟩, hd2⟩ := h
  unfold nextDay
  split_ifs with h1 h2
  · unfold toOrdinal
    dsimp only
    push_cast
    omega
  · have hstep := monthStep d.year d.month hm1 (by omega)
    have hdm : d.day = daysInMonth d.year d.month := by omega
    unfold toOrdinal
    dsimp only
    push_cast
    omega
  · have hm12 : d.month = 12 := by omega
    have hd31 : d.day = 31 := by
      rw [hm12] at hd2 h1
      rw [daysInMonth_twelve] at hd2 h1
      omega
    have hls := leapStep d.year hy
    have hb1 : daysBeforeMonth (d.year + 1) 1 = 0 := by simp [daysBeforeMonth]
    unfold toOrdinal
    dsimp only
    rw [hm12, hd31]
    cases hL : isLeap d.year
    · rw [hL] at hls
      have hb12 : daysBeforeMonth d.year 12 = 334 := by simp [daysBeforeMonth, hL]
      rw [hb1, hb12]
      simp only [Bool.false_eq_true, if_false, add_zero] at hls
      push_cast
      omega
    · rw [hL] at hls
      have hb12 : daysBeforeMonth d.year 12 = 335 := by simp [daysBeforeMonth, hL]
      rw [hb1, hb12]
      simp only [if_true] at hls
      push_cast
      omega

theorem maxDayOfYear (y m d : Nat) (h1 : 1 ≤ m) (h2 : m ≤ 12) (h3 : d ≤ daysInMonth y m) :
    daysBeforeMonth y m + d ≤ 365 + (if isLeap y then 1 else 0) := by
  cases hL : isLeap y <;>
    (interval_cases m <;> simp [daysBeforeMonth, daysInMonth, hL] at h3 ⊢ <;> omega)

theorem yearUpper {d : Date} (h : validDate d = true) :
    toOrdinal d < toOrdinal ⟨d.year + 1, 1, 1⟩ := by
  unfold validDate at h
  simp only [Bool.and_eq_true, decide_eq_true_eq] at h
  obtain ⟨⟨⟨⟨hy, hm1⟩, hm2⟩, hd1⟩, hd2⟩ := h
  have hmax := maxDayOfYear d.year d.month d.day hm1 hm2 hd2
  have hls := leapStep d.year hy
  have hb1 : daysBeforeMonth (d.year + 1) 1 = 0 := by simp [daysBeforeMonth]
  unfold toOrdinal
  dsimp only
  rw [hb1]
  cases hL : isLeap d.year <;> rw [hL] at hls hmax <;>
    simp only [Bool.false_eq_true, if_false, if_true, add_zero] at hls hmax <;>
    push_cast <;> omega

theorem yearStartMono {y y' : Nat} (h0 : 1 ≤ y) (h : y ≤ y') :
    toOrdinal ⟨y, 1, 1⟩ ≤ toOrdinal ⟨y', 1, 1⟩ := by
  unfold toOrdinal
  dsimp only
  have hb1 : daysBeforeMonth y 1 = 0 := by simp [daysBeforeMonth]
  have hb1' : daysBeforeMonth y' 1 = 0 := by simp [daysBeforeMonth]
  rw [hb1, hb1']
  omega

theorem yearStartLe {d : Date} (h : validDate d = true) :
    toOrdinal ⟨d.year, 1, 1⟩ ≤ toOrdinal d := by
  unfold validDate at h
  simp only [Bool.and_eq_true, decide_eq_true_eq] at h
  obtain ⟨⟨⟨⟨hy, hm1⟩, hm2⟩, hd1⟩, hd2⟩ := h
  have hb1 : daysBeforeMonth d.year 1 = 0 := by simp [daysBeforeMonth]
  unfold toOrdinal
  dsimp only
  rw [hb1]
  omega

theorem toOrdinal_lt_of_lex {a b : Date} (ha : validDate a = true) (hb : validDate b = true)
    (h : a.year < b.year ∨ (a.year = b.year ∧ (a.month < b.month ∨
      (a.month = b.month ∧ a.day < b.day)))) :
    toOrdinal a < toOrdinal b := by
  have hva := ha
  have hvb := hb
  unfold validDate at hva hvb
  simp only [Bool.and_eq_true, decide_eq_true_eq] at hva hvb
  obtain ⟨⟨⟨⟨hya, hm1a⟩, hm2a⟩, hd1a⟩, hd2a⟩ := hva
  obtain ⟨⟨⟨⟨hyb, hm1b⟩, hm2b⟩, hd1b⟩, hd2b⟩ := hvb
  rcases h with hy | ⟨hy, hm⟩
  · calc toOrdinal a < toOrdinal ⟨a.year + 1, 1, 1⟩ := yearUpper ha
      _ ≤ toOrdinal ⟨b.year, 1, 1⟩ := yearStartMono (by omega) (by omega)
      _ ≤ toOrdinal b := yearStartLe hb
  · rcases hm with hm | ⟨hm, hd⟩
    · have hbound := monthBound a.year a.month b.month hm1a (by omega) (by omega)
      unfold toOrdinal
      rw [hy] at hd2a hbound ⊢
      omega
    · unfold toOrdinal
      rw [hy, hm]
      omega

theorem dateLe_iff {a b : Date} : dateLe a b = true ↔
    (a.year < b.year ∨ (a.year = b.year ∧ (a.month < b.month ∨
      (a.month = b.month ∧ a.day ≤ b.day)))) := by
  simp [dateLe]

theorem toOrdinal_le_iff {a b : Date} (ha : validDate a = true) (hb : validDate b = true) :
    toOrdinal a ≤ toOrdinal b ↔ dateLe a b = true := by
  rw [dateLe_iff]
  constructor
  · intro hle
    by_contra hcon
    have hgt : b.year < a.year ∨ (b.year = a.year ∧ (b.month < a.month ∨
        (b.month = a.month ∧ b.day < a.day))) := by omega
    have := toOrdinal_lt_of_lex hb ha hgt
    omega
  · intro hlex
    rcases hlex with h | ⟨hy, h⟩
    · exact le_of_lt (toOrdinal_lt_of_lex ha hb (Or.inl h))
    · rcases h with h | ⟨hm, hd⟩
      · exact le_of_lt (toOrdinal_lt_of_lex ha hb (Or.inr ⟨hy, Or.inl h⟩))
      · rcases Nat.lt_or_ge a.day b.day with h | h
        · exact le_of_lt (toOrdinal_lt_of_lex ha hb (Or.inr ⟨hy, Or.inr ⟨hm, h⟩⟩))
        · have hab : a = b := by
            cases a
            cases b
            simp_all
            omega
          rw [hab]

theorem toOrdinal_inj {a b : Date} (ha : validDate a = true) (hb : validDate b = true)
    (h : toOrdinal a = toOrdinal b) : a = b := by
  have h1 := (toOrdinal_le_iff ha hb).mp (le_of_eq h)
  have h2 := (toOrdinal_le_iff hb ha).mp (le_of_eq h.symm)
  rw [dateLe_iff] at h1 h2
  cases a
  cases b
  simp_all
  omega

theorem nextDay_iterate {d : Date} (h : validDate d = true) (i : Nat) :
    validDate (nextDay^[i] d) = true ∧ toOrdinal (nextDay^[i] d) = toOrdinal d + i := by
  induction i with
  | zero =>
    constructor
    · simpa using h
    · simp
  | succ n ih =>
    rw [Function.iterate_succ_apply']
    refine ⟨validDate_nextDay ih.1, ?_⟩
    rw [toOrdinal_nextDay ih.1, ih.2]
    push_cast
    ring

theorem mem_weekKeys {s k : Date} {count : Nat} :
    k ∈ weekKeys s count ↔ ∃ i, i < count ∧ k = nextDay^[i] s := by
  simp only [weekKeys, List.mem_map, List.mem_range]
  constructor
  · rintro ⟨i, hi, rfl⟩
    exact ⟨i, hi, rfl⟩
  · rintro ⟨i, hi, rfl⟩
    exact ⟨i, hi, rfl⟩

theorem weekKeys_in_range {s e k : Date} (hs : validDate s = true) (he : validDate e = true)
    (hk : k ∈ weekKeys s (toOrdinal e - toOrdinal s + 1).toNat) :
    validDate k = true ∧ dateLe s k = true ∧ dateLe k e = true := by
  rcases mem_weekKeys.mp hk with ⟨i, hi, rfl⟩
  obtain ⟨hv, ho⟩ := nextDay_iterate hs i
  refine ⟨hv, ?_, ?_⟩
  · exact (toOrdinal_le_iff hs hv).mp (by omega)
  · exact (toOrdinal_le_iff hv he).mp (by omega)

theorem weekKeys_complete {s e d : Date} (hs : validDate s = true) (he : validDate e = true)
    (hd : validDate d = true) (h1 : dateLe s d = true) (h2 : dateLe d e = true) :
    d ∈ weekKeys s (toOrdinal e - toOrdinal s + 1).toNat := by
  have hsd := (toOrdinal_le_iff hs hd).mpr h1
  have hde := (toOrdinal_le_iff hd he).mpr h2
  obtain ⟨hv, ho⟩ := nextDay_iterate hs (toOrdinal d - toOrdinal s).toNat
  refine mem_weekKeys.mpr ⟨(toOrdinal d - toOrdinal s).toNat, by omega, ?_⟩
  exact toOrdinal_inj hd hv (by omega)

theorem bucketInsert_none_iff {d : Date} {ev : Event} {bs : List (Date × List Event)} :
    bucketInsert d ev bs = none ↔ d ∉ bs.map Prod.fst := by
  induction bs with
  | nil => simp [bucketInsert]
  | cons kl rest ih =>
    obtain ⟨kk, l⟩ := kl
    unfold bucketInsert
    by_cases h : kk == d
    · simp only [h, if_true]
      simp only [beq_iff_eq] at h
      subst h
      simp
    · simp only [h, Bool.false_eq_true, if_false]
      simp only [beq_iff_eq] at h
      cases hki : bucketInsert d ev rest <;> simp [hki] at ih ⊢ <;> simp_all [eq_comm]

theorem bucketInsert_keys {d : Date} {ev : Event} {bs r : List (Date × List Event)}
    (h : bucketInsert d ev bs = some r) : r.map Prod.fst = bs.map Prod.fst := by
  induction bs generalizing r with
  | nil => simp [bucketInsert] at h
  | cons kl rest ih =>
    obtain ⟨kk, l⟩ := kl
    unfold bucketInsert at h
    by_cases hk : kk == d
    · simp only [hk, if_true] at h
      cases h
      simp
    · simp only [hk, Bool.false_eq_true, if_false] at h
      cases hki : bucketInsert d ev rest with
      | none => rw [hki] at h; simp at h
      | some r2 =>
        rw [hki] at h
        simp only [Option.some.injEq] at h
        subst h
        simp [ih hki]

theorem bucketEvents_isSome_iff (db : TZDB) (evs : List Event) (bs : List (Date × List Event)) :
    (bucketEvents db evs bs).isSome = true ↔
      ∀ ev ∈ evs, startDateKyiv db ev ∈ bs.map Prod.fst := by
  induction evs generalizing bs with
  | nil => simp [bucketEvents]
  | cons ev rest ih =>
    unfold bucketEvents
    cases hki : bucketInsert (startDateKyiv db ev) ev bs with
    | none =>
      have := bucketInsert_none_iff.mp hki
      simp only [Option.isSome_none, Bool.false_eq_true, false_iff]
      intro hall
      exact this (hall ev (by simp))
    | some bs2 =>
      have hkeys := bucketInsert_keys hki
      rw [ih bs2, hkeys]
      constructor
      · intro hall
        intro e he
        rcases List.mem_cons.mp he with rfl | he2
        · have := @bucketInsert_none_iff (startDateKyiv db e) e bs
          by_contra hno
          rw [← this] at hno
          · rw [hno] at hki
            simp at hki
        · exact hall e he2
      · intro hall e he
        exact hall e (List.mem_cons_of_mem _ he)

/-- C10. The week composer buckets events into a dict keyed exactly by the
calendar days from `start_day` to `end_day`: for any event list containing
an event whose Kyiv start date falls outside that range it fails with a
missing-key error (modelled as `none`), while for every event list whose
events' Kyiv start dates are all (valid and) inside the range it succeeds. -/
theorem format_week_bucket_domain (db : TZDB) (now : NaiveDT) (events : List Event)
    (s e : Date) (hs : validDate s = true) (he : validDate e = true) :
    ((∃ ev ∈ events, dateLe s (startDateKyiv db ev) = false ∨
        dateLe (startDateKyiv db ev) e = false) →
      format_week_message db now events s e = none) ∧
    ((∀ ev ∈ events, validDate (startDateKyiv db ev) = true ∧
        dateLe s (startDateKyiv db ev) = true ∧ dateLe (startDateKyiv db ev) e = true) →
      (format_week_message db now events s e).isSome = true) := by
  have hkeys : List.map Prod.fst ((weekKeys s (toOrdinal e - toOrdinal s + 1).toNat).map
      (fun d => (d, ([] : List Event)))) = weekKeys s (toOrdinal e - toOrdinal s + 1).toNat := by
    rw [List.map_map]
    exact List.map_id _
  constructor
  · rintro ⟨ev, hev, hout⟩
    unfold format_week_message
    cases hb : bucketEvents db events ((weekKeys s (toOrdinal e - toOrdinal s + 1).toNat).map
        (fun d => (d, ([] : List Event)))) with
    | none => simp [hb]
    | some bs =>
      exfalso
      have hsome : (bucketEvents db events ((weekKeys s
          (toOrdinal e - toOrdinal s + 1).toNat).map (fun d => (d, ([] : List Event))))).isSome =
          true := by
        rw [hb]
        rfl
      have hmem := (bucketEvents_isSome_iff db events _).mp hsome ev hev
      rw [hkeys] at hmem
      have hin := weekKeys_in_range hs he hmem
      rcases hout with hout | hout
      · rw [hin.2.1] at hout
        simp at hout
      · rw [hin.2.2] at hout
        simp at hout
  · intro hall
    have hsome : (bucketEvents db events ((weekKeys s
        (toOrdinal e - toOrdinal s + 1).toNat).map (fun d => (d, ([] : List Event))))).isSome =
        true := by
      refine (bucketEvents_isSome_iff db events _).mpr ?_
      intro ev hmem
      rw [hkeys]
      exact weekKeys_complete hs he (hall ev hmem).1 (hall ev hmem).2.1 (hall ev hmem).2.2
    unfold format_week_message
    cases hb : bucketEvents db events ((weekKeys s (toOrdinal e - toOrdinal s + 1).toNat).map
        (fun d => (d, ([] : List Event)))) with
    | none =>
      rw [hb] at hsome
      simp at hsome
    | some bs => simp [hb]

def weekEvent : Event :=
  ⟨⟨⟨2024, 3, 4, 9, 0, 0⟩, KYIV⟩, ⟨⟨2024, 3, 4, 10, 30, 0⟩, KYIV⟩, str "X", [], []⟩

theorem format_week_bucket_domain_witness :
    (format_week_message dbId ⟨2024, 1, 1, 8, 0, 0⟩ [weekEvent]
      ⟨2024, 3, 4⟩ ⟨2024, 3, 10⟩).isSome = true :=
  (format_week_bucket_domain dbId ⟨2024, 1, 1, 8, 0, 0⟩ [weekEvent] ⟨2024, 3, 4⟩ ⟨2024, 3, 10⟩
    (by decide) (by decide)).2 (by decide)
